import Mathlib

/-!
Verification of the log-reconstruction pipeline of the
reconstructing-bluesky repository against its natural-language
specification.

The development shallowly embeds:
* the radix-32 identifier codec (class s32 in src/utils/__init__.py),
* the URI helpers did_from_uri / rkey_from_uri and parse_rkey,
* the timestamp resolver calc_timestamp of
  scripts/processing/process-raw-firehose.py,
* the bounded reorder engine (heap loop of the same script),
* the deleted-detection forward scan, and
* the tombstone reinsertion merge.

Machine-level conventions: Python integers are Nat/Int; the Python heap
of (ts, counter, record) tuples is embedded as a list kept sorted by the
(ts, counter) key, which is observationally equivalent because the
counter component is unique so the record component is never compared;
datetime values produced by datetime.fromtimestamp(micros / 1e6) are
represented by their microsecond value, which determines them and orders
them identically; code paths where the Python source raises an uncaught
exception are modelled with Except / Option.
-/

namespace Bluesky

namespace s32

def S32_CHAR : List Char := "234567abcdefghijklmnopqrstuvwxyz".toList

/-- Embedding of Python `S32_CHAR.index(c)`: the raised ValueError on a
character outside the alphabet becomes `none`. -/

def charIndex (c : Char) : Option Nat := S32_CHAR.findIdx? (fun d => d = c)

/-- Embedding of `s32.encode`: repeatedly take the low base-32 digit and
prepend its character; `encode 0` is the empty string, as in the source. -/

def encode (i : Nat) : List Char :=
  if h : i = 0 then []
  else encode (i / 32) ++ [S32_CHAR.getD (i % 32) '2']
termination_by i
decreasing_by exact Nat.div_lt_self (Nat.pos_of_ne_zero h) (by norm_num)

def decodeAux (acc : Nat) : List Char → Option Nat
  | [] => some acc
  | c :: cs =>
    match charIndex c with
    | none => none
    | some k => decodeAux (acc * 32 + k) cs

/-- Embedding of `s32.decode`: left fold `i = i * 32 + index(c)`;
a character outside the alphabet yields `none` (uncaught ValueError). -/

def decode (s : List Char) : Option Nat := decodeAux 0 s

end s32

def splitOnChar (sep : Char) : List Char → List (List Char)
  | [] => [[]]
  | c :: cs =>
    let r := splitOnChar sep cs
    if c = sep then [] :: r
    else
      match r with
      | [] => [[c]]
      | h :: t => (c :: h) :: t

/-- The pieces of `uri.split("/")` as strings. -/

def pySplit (uri : String) : List String :=
  (splitOnChar '/' uri.toList).map List.asString

/-- Embedding of `did_from_uri`: the source raises ValueError on an
empty URI and on a URI whose split has no index 2; both become `none`. -/

def did_from_uri (uri : String) : Option String :=
  if uri = "" then none else (pySplit uri).get? 2

/-- Embedding of `rkey_from_uri`: the last `/`-separated component of
the URI (Python `uri.split("/")[-1]`; the split is never empty). -/

def rkey_from_uri (uri : String) : String :=
  (pySplit uri).getLastD ""

deriving instance DecidableEq for Except

/-- Embedding of `parse_rkey`: decode all but the final two characters
as the embedded timestamp and the final two as the clock id.  The
source wraps the timestamp as `datetime.fromtimestamp(ts / 1_000_000)`;
that datetime is determined by — and ordered exactly like — the decoded
microsecond value, so the embedding keeps the microsecond value.  A
character outside the alphabet raises in the source and is `none` here. -/

def parse_rkey (rev : String) : Option (Nat × Nat) :=
  let l := rev.toList
  let n := l.length
  match s32.decode (l.take (n - 2)), s32.decode (l.drop (n - 2)) with
  | some t, some c => some (t, c)
  | _, _ => none

/-! ### Timestamp resolution (process-raw-firehose.py lines 64-80) -/

/-- Record kinds: the closed set of `$type` values in the stream. -/

inductive RKind
  | post | follow | repost | like | block | profile

deriving DecidableEq, Repr

/-- The fields of a raw stream record consulted by `calc_timestamp`:
its `$type`, its `uri` and its `createdAt`. -/

structure RawRecord where
  kind : RKind
  uri : String
  createdAt : String

deriving DecidableEq, Repr

/-- Value stored into the derived `ts` field by `calc_timestamp`: the
Profile branch stores the integer millisecond value
`int(fromisoformat(createdAt).timestamp() * 1000)`; every other branch
stores the `datetime` returned by `parse_rkey`, represented here by its
microsecond value.  The two constructors are deliberately distinct
because Python `datetime` and `int` are distinct, mutually incomparable
values. -/

inductive PyTs
  | dt (micros : Nat)
  | ms (n : Int)

deriving DecidableEq, Repr

/-- Embedding of `calc_timestamp`.  The ISO-8601 parser of the Python
standard library is passed in as `isoMs`, returning the integer
millisecond value or `none` when `datetime.fromisoformat` raises.
`Except.error ()` models an uncaught exception aborting the run,
`.ok none` models `return None` (the caller skips the record), and
`.ok (some v)` a resolved timestamp. -/

def calc_timestamp (isoMs : String → Option Int) (r : RawRecord) :
    Except Unit (Option PyTs) :=
  if r.kind = RKind.profile then
    match isoMs r.createdAt with
    | none => Except.error ()
    | some n => Except.ok (some (PyTs.ms n))
  else
    let rkey := rkey_from_uri r.uri
    if rkey = "" then Except.ok none
    else
      match parse_rkey rkey with
      | none => Except.error ()
      | some (t, _) => Except.ok (some (PyTs.dt t))

inductive ScanRecord
  | post (did uri : String) (reply : Option (String × String)) (quoted : Option String)
  | follow (did subject : String)
  | repost (did subjectUri : String)
  | like (did subjectUri : String)
  | block (did subject : String)
  | profile (did : String)

deriving DecidableEq, Repr

def ScanRecord.did : ScanRecord → String
  | .post d _ _ _ => d
  | .follow d _ => d
  | .repost d _ => d
  | .like d _ => d
  | .block d _ => d
  | .profile d => d

/-- Modelled from the spec: `get_quoted_uri` is imported by the
processing script but its definition is not among the sources; per the
spec, a Post with a quote embed yields the quoted identifier and any
other record yields nothing.  The embedding stores that result in the
post's `quoted` field. -/

def get_quoted_uri : ScanRecord → Option String
  | .post _ _ _ q => q
  | _ => none

/-- The four growing sets of the scan: `users`, `posts`,
`deleted_users`, `deleted_posts`. -/

structure ScanState where
  users : List String
  posts : List String
  deleted_users : List String
  deleted_posts : List String

deriving DecidableEq, Repr

/-- Python `set.add`: membership-guarded insertion (a Python set never
holds duplicates, so adding an existing element changes nothing). -/

def sadd (x : String) (s : List String) : List String :=
  if x ∈ s then s else x :: s

/-- The reference check the scan applies to a post reference (reply
root, reply parent, quote target, like/repost subject): add the
referenced identifier to `deleted_posts` when it is not a known post,
then extract its actor and add that to `deleted_users` when it is not a
known user.  `Except.error ()` models the uncaught ValueError raised by
`did_from_uri` on an identifier with no index-2 component, which aborts
the whole run. -/

def refCheck (st : ScanState) (uri : String) : Except Unit ScanState :=
  let st1 := { st with deleted_posts :=
    if uri ∈ st.posts then st.deleted_posts else sadd uri st.deleted_posts }
  match did_from_uri uri with
  | none => Except.error ()
  | some d => Except.ok { st1 with deleted_users :=
      if d ∈ st1.users then st1.deleted_users else sadd d st1.deleted_users }

/-- One step of the deleted-detection scan: the body of the
`for record in records(...)` loop of the processing script.  The
record's own actor is added to `users` first; a post then adds its own
URI to `posts`; after that the outbound references are checked in
source order (reply root, reply parent, quote target, or the subject of
a follow / like / repost; blocks and profiles fall to the `case _`
branch and check nothing). -/

def scanStep (st0 : ScanState) (r : ScanRecord) : Except Unit ScanState :=
  let st := { st0 with users := sadd r.did st0.users }
  match r with
  | .post _ uri reply quoted =>
    let stp := { st with posts := sadd uri st.posts }
    Except.bind
      (match reply with
       | none => Except.ok stp
       | some (root, parent) =>
         Except.bind (if root = "" then Except.ok stp else refCheck stp root)
           (fun st1 =>
             if parent = "" then Except.ok st1 else refCheck st1 parent))
      (fun st2 =>
        match quoted with
        | none => Except.ok st2
        | some q => if q = "" then Except.ok st2 else refCheck st2 q)
  | .follow _ subj =>
    Except.ok { st with deleted_users :=
      if subj ∈ st.users then st.deleted_users else sadd subj st.deleted_users }
  | .like _ su => refCheck st su
  | .repost _ su => refCheck st su
  | .block _ _ => Except.ok st
  | .profile _ => Except.ok st

structure BRec where
  ts : Int

deriving DecidableEq, Repr

/-- An output record of the merge: an original batch record passed
through, or a synthesized tombstone — the source dict with
`$type = app.bsky.feed.post`, the given `ts`, `did`, `uri` and
`deleted = True` (the two constructors carry exactly those fields). -/

inductive MRec
  | orig (r : BRec)
  | tomb (ts : Int) (did uri : String)

deriving DecidableEq, Repr

/-- The URI of a tombstone, `none` for a pass-through record. -/

def tombUri : MRec → Option String
  | .tomb _ _ u => some u
  | .orig _ => none

/-- The three cursor variables of the merge, `delete_idx`, `delete_ts`
and `last_ts`; they live outside the batch loop and therefore carry
over across batch boundaries. -/

structure MergeSt where
  delete_idx : Nat
  delete_ts : Int
  last_ts : Int

deriving DecidableEq, Repr

/-- The cursor initialisation of the source: `delete_ts = -1`,
`delete_idx = 0`, `last_ts = -1`.  Note that `delete_ts` is NOT
initialised from the first delete entry's record-key. -/

def initMergeSt : MergeSt := ⟨0, -1, -1⟩

/-- Embedding of the valid-delete filter (lines 260-265): an entry with
an empty record-key is skipped; a nonempty record-key is parsed — in
the source an undecodable one raises, aborting the run
(`Except.error`) — and the entry kept. -/

def valid_deletes : List String → Except Unit (List String)
  | [] => Except.ok []
  | uri :: rest =>
    if rkey_from_uri uri = "" then valid_deletes rest
    else
      match parse_rkey (rkey_from_uri uri) with
      | none => Except.error ()
      | some _ =>
        match valid_deletes rest with
        | Except.error e => Except.error e
        | Except.ok l => Except.ok (uri :: l)

/-- Python string comparison: lexicographic on Unicode code points. -/

def strLeChars : List Char → List Char → Bool
  | [], _ => true
  | _ :: _, [] => false
  | a :: as, b :: bs =>
    if a.toNat < b.toNat then true
    else if b.toNat < a.toNat then false
    else strLeChars as bs

def pyStrLe (a b : String) : Bool := strLeChars a.toList b.toList

/-- Embedding of `sorted(valid_deletes, key=lambda x: x.split("/")[-1])`:
a stable sort on the record-key string, as Python's stable sorted. -/

def sortDeletes (l : List String) : List String :=
  List.insertionSort
    (fun a b => pyStrLe (rkey_from_uri a) (rkey_from_uri b) = true) l

/-- The decoded timestamp of a delete entry, as the merge reads it at
line 303 (`delete_ts, _ = parse_rkey(rkey_from_uri(...))`).  Entries
reaching the merge have passed the valid-delete filter, so the parse
cannot fail there; the 0 default is never exercised. -/

def deleteTsOf (uri : String) : Int :=
  match parse_rkey (rkey_from_uri uri) with
  | some (t, _) => Int.ofNat t
  | none => 0

/-- The cursor advance of the merge loop (lines 301-303): step past
the emitted entry and refresh the pending `delete_ts` from the next
entry's record-key when a further entry exists. -/

def nextSt (deletes : List String) (st : MergeSt) : MergeSt :=
  ⟨st.delete_idx + 1,
   (if st.delete_idx + 1 < deletes.length
    then deleteTsOf (deletes.getD (st.delete_idx + 1) "")
    else st.delete_ts),
   st.last_ts⟩

/-- The inner while loop of the merge (lines 287-303), with structural
fuel: while a delete entry is pending and `delete_ts` lies in
`[last_ts, ts]`, append a tombstone carrying the ts of the CURRENT
original record (`"ts": ts` at line 295) and advance the cursor.
The fuel `deletes.length - delete_idx` is exact: when it is 0 the loop
guard `delete_idx < len(sorted_deletes)` is false anyway.
`did_from_uri` raises in the source on a URI with no index-2 component;
the `""` default stands for that unreachable-under-filter path. -/

def emitTombs (deletes : List String) (ts : Int) :
    Nat → MergeSt → List MRec × MergeSt
  | 0, st => ([], st)
  | fuel + 1, st =>
    if h : st.delete_idx < deletes.length ∧ st.last_ts ≤ st.delete_ts ∧
        st.delete_ts ≤ ts then
      let uri := deletes.get ⟨st.delete_idx, h.1⟩
      let tombRec := MRec.tomb ts ((did_from_uri uri).getD "") uri
      let next := emitTombs deletes ts fuel (nextSt deletes st)
      (tombRec :: next.1, next.2)
    else ([], st)

/-- The per-record body of the merge's batch loop (lines 283-306):
emit the due tombstones, then the original record, then advance
`last_ts` to the record's ts. -/

def processBatch (deletes : List String) :
    MergeSt → List BRec → List MRec × MergeSt
  | st, [] => ([], st)
  | st, r :: rs =>
    let step := emitTombs deletes r.ts (deletes.length - st.delete_idx) st
    let rest := processBatch deletes
      ⟨step.2.delete_idx, step.2.delete_ts, r.ts⟩ rs
    (step.1 ++ MRec.orig r :: rest.1, rest.2)

/-- The batch-file loop of the merge (lines 278-310): one output batch
per input batch, the cursor state threaded across batches; nothing is
appended after the last input batch. -/

def mergeAll (deletes : List String) :
    MergeSt → List (List BRec) → List (List MRec) × MergeSt
  | st, [] => ([], st)
  | st, b :: bs =>
    let nb := processBatch deletes st b
    let rest := mergeAll deletes nb.2 bs
    (nb.1 :: rest.1, rest.2)

/-- The delete re-insertion phase end to end: filter, sort, merge. -/

def reinsertDeletes (deleted_posts : List String)
    (batches : List (List BRec)) : Except Unit (List (List MRec)) :=
  match valid_deletes deleted_posts with
  | Except.error e => Except.error e
  | Except.ok vd =>
    Except.ok (mergeAll (sortDeletes vd) initMergeSt batches).1

/-- Check that every tombstone of a batch is followed by an entry of
the same ts, the chain ending at an original record: equivalently,
every maximal run of tombstones shares the ts of the original record
immediately after it, and no batch ends in a tombstone. -/

def tombsMatchNext : List MRec → Bool
  | [] => true
  | MRec.orig _ :: rest => tombsMatchNext rest
  | MRec.tomb t _ _ :: rest =>
    match rest with
    | [] => false
    | MRec.orig r :: _ => decide (r.ts = t) && tombsMatchNext rest
    | MRec.tomb t' _ _ :: _ => decide (t' = t) && tombsMatchNext rest

abbrev Key := Int × Nat

/-- The order in which the heap ranks its tuples: lexicographic on
`(ts, counter)`. -/

def keyLe (a b : Key) : Prop :=
  a.1 < b.1 ∨ (a.1 = b.1 ∧ a.2 ≤ b.2)

instance keyLe.decRel : DecidableRel keyLe := fun a b => by
  unfold keyLe
  infer_instance

instance keyLe.total : IsTotal Key keyLe :=
  ⟨by intro a b; unfold keyLe; omega⟩

instance keyLe.trans : IsTrans Key keyLe :=
  ⟨by intro a b c hab hbc; unfold keyLe at hab hbc ⊢; omega⟩

instance keyLe.antisymm : IsAntisymm Key keyLe :=
  ⟨by
    intro a b hab hba
    unfold keyLe at hab hba
    have h1 : a.1 = b.1 := by omega
    have h2 : a.2 = b.2 := by omega
    exact Prod.ext h1 h2⟩

/-- The heap as a list kept sorted by `keyLe`: `heapq.heappush` becomes
ordered insertion, and popping the minimum becomes taking the head.
This is observationally the Python heap, whose pops return entries in
exactly this order. -/

def heapPush (k : Key) (buf : List Key) : List Key :=
  List.orderedInsert keyLe k buf

/-- The streaming loop of the engine (lines 94-123): push each resolved
record's key with its arrival counter; whenever the buffer holds
`2 * BATCH_SIZE` entries, pop the `BATCH_SIZE` smallest and flush them
as the next temp batch. -/

def reorderPush (B : Nat) : List Key → List Key → List (List Key) × List Key
  | [], buf => ([], buf)
  | k :: rest, buf =>
    let buf' := heapPush k buf
    if 2 * B ≤ buf'.length then
      let step := reorderPush B rest (buf'.drop B)
      (buf'.take B :: step.1, step.2)
    else reorderPush B rest buf'

/-- The drain loop (lines 126-136): pop the remaining entries in
batches of up to `B`.  With `B = 0` the source would loop forever
(nothing is ever popped and the batch stays empty), so that degenerate
case returns `[]` here; every theorem assumes `0 < B`. -/

def drain (B : Nat) (buf : List Key) : List (List Key) :=
  if hB : B = 0 then []
  else if hb : buf = [] then []
  else buf.take B :: drain B (buf.drop B)
termination_by buf.length
decreasing_by
  have h1 : 0 < buf.length := List.length_pos.mpr hb
  have h2 : 0 < B := Nat.pos_of_ne_zero hB
  rw [List.length_drop]
  omega

/-- The arrival keys of a stream of resolved timestamps: counter `i`
for the i-th resolved record, as the source's `counter += 1`. -/

def enumKeys (tss : List Int) : List Key :=
  tss.enum.map (fun p => (p.2, p.1))

/-- The reorder engine end to end: stream the keys in arrival order,
then drain what remains. -/

def reorder (B : Nat) (tss : List Int) : List (List Key) :=
  (reorderPush B (enumKeys tss) []).1 ++ drain B (reorderPush B (enumKeys tss) []).2

/-- The fully sorted key sequence: what the heap would emit if it held
all records at once.  With all counters distinct this is the unique
sorted permutation of the input keys. -/

def sortedKeys (tss : List Int) : List Key :=
  List.insertionSort keyLe (enumKeys tss)

/-! ### Theorems -/

theorem s32_decodeAux_append (xs ys : List Char) :
    ∀ acc, s32.decodeAux acc (xs ++ ys) =
      (s32.decodeAux acc xs).bind (fun m => s32.decodeAux m ys) := by
  induction xs with
  | nil => intro acc; rfl
  | cons c cs ih =>
    intro acc
    simp only [List.cons_append, s32.decodeAux]
    cases s32.charIndex c with
    | none => rfl
    | some k => exact ih _

theorem s32_charIndex_digit : ∀ k, k < 32 →
    s32.charIndex (s32.S32_CHAR.getD k '2') = some k := by decide

theorem s32_encode_zero : s32.encode 0 = [] := by
  rw [s32.encode]
  rfl

theorem s32_encode_pos (v : Nat) (h : v ≠ 0) :
    s32.encode v = s32.encode (v / 32) ++ [s32.S32_CHAR.getD (v % 32) '2'] := by
  rw [s32.encode]
  exact dif_neg h

/-- C5: Codec round-trip — decoding the radix-32 encoding of any
non-negative integer v yields v again (in particular for every value in
the 13-character record-key range). -/

theorem s32_round_trip (v : Nat) : s32.decode (s32.encode v) = some v := by
  induction v using Nat.strong_induction_on with
  | _ v ih =>
    by_cases h : v = 0
    · subst h; rw [s32_encode_zero]; rfl
    · have hpos : 0 < v := Nat.pos_of_ne_zero h
      have hstep := s32_encode_pos v h
      have hdiv : v / 32 < v := Nat.div_lt_self hpos (by norm_num)
      have hrec := ih (v / 32) hdiv
      unfold s32.decode at hrec ⊢
      rw [hstep, s32_decodeAux_append, hrec]
      simp only [Option.some_bind]
      have hmod : v % 32 < 32 := Nat.mod_lt _ (by norm_num)
      simp only [s32.decodeAux, s32_charIndex_digit _ hmod]
      congr 1
      omega

/-! ### URI helpers and rkey parsing (src/src/utils/__init__.py lines 177-218) -/

/-- Splitting a character list on a separator, with the semantics of
Python `str.split(sep)` for a one-character separator: the split of the
empty string is `[[]]`, and consecutive separators produce empty
pieces. -/

theorem s32_decodeAux_isSome (l : List Char) : ∀ acc,
    (s32.decodeAux acc l).isSome = true ↔
      ∀ c ∈ l, (s32.charIndex c).isSome = true := by
  induction l with
  | nil => intro acc; simp [s32.decodeAux]
  | cons c cs ih =>
    intro acc
    simp only [s32.decodeAux, List.mem_cons]
    cases hc : s32.charIndex c with
    | none =>
      simp only [Option.isSome_none]
      constructor
      · intro h; exact absurd h (by simp)
      · intro h
        have := h c (Or.inl rfl)
        rw [hc] at this
        exact absurd this (by simp)
    | some k =>
      rw [ih]
      constructor
      · intro h d hd
        rcases hd with hd | hd
        · subst hd; rw [hc]; rfl
        · exact h d hd
      · intro h d hd
        exact h d (Or.inr hd)

theorem s32_decode_isSome (l : List Char) :
    (s32.decode l).isSome = true ↔
      ∀ c ∈ l, (s32.charIndex c).isSome = true :=
  s32_decodeAux_isSome l 0

theorem parse_rkey_eq (s : String) : parse_rkey s =
    match s32.decode (s.toList.take (s.toList.length - 2)),
        s32.decode (s.toList.drop (s.toList.length - 2)) with
    | some t, some c => some (t, c)
    | _, _ => none := rfl

theorem match_pair_isSome (o1 o2 : Option Nat) :
    (match o1, o2 with
      | some t, some c => some (t, c)
      | _, _ => none).isSome = (o1.isSome && o2.isSome) := by
  cases o1 <;> cases o2 <;> rfl

theorem parse_rkey_isSome (s : String) :
    (parse_rkey s).isSome = true ↔
      ∀ c ∈ s.toList, (s32.charIndex c).isSome = true := by
  rw [parse_rkey_eq, match_pair_isSome, Bool.and_eq_true,
    s32_decode_isSome, s32_decode_isSome]
  conv_rhs => rw [← List.take_append_drop (s.toList.length - 2) s.toList]
  rw [List.forall_mem_append]

/-- C4 counterexample: for the Post record with record-key "322" the
source stores the datetime of the decoded value 1 microsecond
(constructor `PyTs.dt`), not the integer-millisecond value
1 / 1000 = 0 required by the claim, so the canonical ordering
timestamp of an identifier-bearing record is not an integer number of
milliseconds. -/

theorem calc_timestamp_not_integer_ms :
    calc_timestamp (fun _ => none)
      ⟨RKind.post, "at://did:plc:abc/app.bsky.feed.post/322", "x"⟩ =
      Except.ok (some (PyTs.dt 1)) ∧
    Except.ok (some (PyTs.dt 1)) ≠
      (Except.ok (some (PyTs.ms (1 / 1000))) : Except Unit (Option PyTs)) := by
  exact ⟨rfl, by decide⟩

/-- C4 (amended): for every identifier-bearing record whose record-key
parses, `calc_timestamp` stores the datetime carrying the decoded
microsecond value (no division by 1000 takes place), while for a
Profile record it stores the integer millisecond value from
`createdAt`; the two results are distinct kinds of value, so records
are not ordered by a single integer-milliseconds ts. -/

theorem calc_timestamp_units (isoMs : String → Option Int) (r rp : RawRecord)
    (t c : Nat) (n : Int)
    (hk : r.kind ≠ RKind.profile)
    (hne : rkey_from_uri r.uri ≠ "")
    (hp : parse_rkey (rkey_from_uri r.uri) = some (t, c))
    (hkp : rp.kind = RKind.profile)
    (hiso : isoMs rp.createdAt = some n) :
    calc_timestamp isoMs r = Except.ok (some (PyTs.dt t)) ∧
    calc_timestamp isoMs rp = Except.ok (some (PyTs.ms n)) ∧
    ∀ m : Int, PyTs.dt t ≠ PyTs.ms m := by
  refine ⟨?_, ?_, ?_⟩
  · unfold calc_timestamp
    rw [if_neg hk, if_neg hne, hp]
  · unfold calc_timestamp
    rw [if_pos hkp, hiso]
  · intro m h
    exact PyTs.noConfusion h

/-- Witness for the amended C4 theorem at a concrete Post and Profile
record. -/

theorem calc_timestamp_units_witness :
    calc_timestamp (fun _ => some 5)
      ⟨RKind.post, "at://did:plc:abc/app.bsky.feed.post/322", "x"⟩ =
      Except.ok (some (PyTs.dt 1)) ∧
    calc_timestamp (fun _ => some 5) ⟨RKind.profile, "", "2023"⟩ =
      Except.ok (some (PyTs.ms 5)) ∧
    ∀ m : Int, PyTs.dt 1 ≠ PyTs.ms m :=
  calc_timestamp_units (fun _ => some 5)
    ⟨RKind.post, "at://did:plc:abc/app.bsky.feed.post/322", "x"⟩
    ⟨RKind.profile, "", "2023"⟩ 1 0 5 (by decide) (by decide) rfl rfl rfl

/-- C7 counterexample: the Post record with the 3-character record-key
"a22" (not 13 characters) is not dropped — it resolves to a timestamp —
and a Profile record whose createdAt fails to parse aborts the run with
an uncaught exception instead of being dropped with the run
continuing. -/

theorem calc_timestamp_short_rkey_not_dropped :
    calc_timestamp (fun _ => none)
      ⟨RKind.post, "at://did:plc:abc/app.bsky.feed.post/a22", "x"⟩ =
      Except.ok (some (PyTs.dt 6)) ∧
    Except.ok (some (PyTs.dt 6)) ≠ (Except.ok none : Except Unit (Option PyTs)) ∧
    calc_timestamp (fun _ => none) ⟨RKind.profile, "", "not-a-timestamp"⟩ =
      Except.error () ∧
    (Except.error () : Except Unit (Option PyTs)) ≠ Except.ok none := by
  exact ⟨rfl, by decide, rfl, by decide⟩

/-- C7 (amended): timestamp resolution drops a record (run continuing)
exactly when its record-key is empty; a record-key of any nonzero
length made of alphabet characters resolves successfully regardless of
its length, a record-key containing a character outside the radix-32
alphabet aborts the run with an uncaught exception, and so does a
Profile record whose createdAt is unparsable. -/

theorem calc_timestamp_failure_modes (isoMs : String → Option Int)
    (r rp : RawRecord) (hk : r.kind ≠ RKind.profile)
    (hkp : rp.kind = RKind.profile) :
    (rkey_from_uri r.uri = "" → calc_timestamp isoMs r = Except.ok none) ∧
    (rkey_from_uri r.uri ≠ "" →
      (∃ c ∈ (rkey_from_uri r.uri).toList, s32.charIndex c = none) →
      calc_timestamp isoMs r = Except.error ()) ∧
    (rkey_from_uri r.uri ≠ "" →
      (∀ c ∈ (rkey_from_uri r.uri).toList, (s32.charIndex c).isSome = true) →
      ∃ t, calc_timestamp isoMs r = Except.ok (some (PyTs.dt t))) ∧
    (isoMs rp.createdAt = none → calc_timestamp isoMs rp = Except.error ()) := by
  refine ⟨?_, ?_, ?_, ?_⟩
  · intro he
    unfold calc_timestamp
    rw [if_neg hk, if_pos he]
  · intro hne hbad
    have hnone : parse_rkey (rkey_from_uri r.uri) = none := by
      rw [← Option.not_isSome_iff_eq_none]
      intro hs
      rw [parse_rkey_isSome] at hs
      obtain ⟨ch, hmem, hch⟩ := hbad
      have := hs ch hmem
      rw [hch] at this
      exact absurd this (by simp)
    unfold calc_timestamp
    rw [if_neg hk, if_neg hne, hnone]
  · intro hne hall
    have hsome : (parse_rkey (rkey_from_uri r.uri)).isSome = true := by
      rw [parse_rkey_isSome]; exact hall
    obtain ⟨⟨t, cl⟩, hp⟩ := Option.isSome_iff_exists.mp hsome
    refine ⟨t, ?_⟩
    unfold calc_timestamp
    rw [if_neg hk, if_neg hne, hp]
  · intro hnone
    unfold calc_timestamp
    rw [if_pos hkp, hnone]

/-- Witness for the amended C7 theorem at a concrete Post and Profile
record. -/

theorem calc_timestamp_failure_modes_witness :
    ((rkey_from_uri "a/b/" = "" →
      calc_timestamp (fun _ => none) ⟨RKind.post, "a/b/", "x"⟩ = Except.ok none) ∧
    (rkey_from_uri "a/b/" ≠ "" →
      (∃ c ∈ (rkey_from_uri "a/b/").toList, s32.charIndex c = none) →
      calc_timestamp (fun _ => none) ⟨RKind.post, "a/b/", "x"⟩ = Except.error ()) ∧
    (rkey_from_uri "a/b/" ≠ "" →
      (∀ c ∈ (rkey_from_uri "a/b/").toList, (s32.charIndex c).isSome = true) →
      ∃ t, calc_timestamp (fun _ => none) ⟨RKind.post, "a/b/", "x"⟩ =
        Except.ok (some (PyTs.dt t))) ∧
    ((fun (_ : String) => (none : Option Int)) "bad" = none →
      calc_timestamp (fun _ => none) ⟨RKind.profile, "", "bad"⟩ =
        Except.error ())) :=
  calc_timestamp_failure_modes (fun _ => none)
    ⟨RKind.post, "a/b/", "x"⟩ ⟨RKind.profile, "", "bad"⟩ (by decide) rfl

/-! ### Deleted-detection forward scan (process-raw-firehose.py lines 141-230) -/

/-- A record as consulted by the deleted-detection scan loop: its
`$type` (the constructor), its `did`, and for each kind the reference
fields the loop reads.  `reply` is `none` when the `reply` key is
absent or null; `quoted` is the result of `get_quoted_uri`. -/

theorem mem_sadd (x y : String) (s : List String) :
    x ∈ sadd y s ↔ x = y ∨ x ∈ s := by
  unfold sadd
  by_cases h : y ∈ s
  · rw [if_pos h]
    constructor
    · exact Or.inr
    · rintro (rfl | hx)
      · exact h
      · exact hx
  · rw [if_neg h]
    exact List.mem_cons

theorem mem_cond_sadd (x u : String) (s : List String) (c : Prop) [Decidable c] :
    x ∈ (if c then s else sadd u s) ↔ x ∈ s ∨ (x = u ∧ ¬c) := by
  by_cases h : c
  · rw [if_pos h]
    constructor
    · exact Or.inl
    · rintro (hx | ⟨_, hc⟩)
      · exact hx
      · exact absurd h hc
  · rw [if_neg h, mem_sadd]
    constructor
    · rintro (rfl | hx)
      · exact Or.inr ⟨rfl, h⟩
      · exact Or.inl hx
    · rintro (hx | ⟨rfl, _⟩)
      · exact Or.inr hx
      · exact Or.inl rfl

theorem except_bind_ok (s : ScanState) (f : ScanState → Except Unit ScanState) :
    Except.bind (Except.ok s) f = f s := rfl

theorem refCheck_ok (st : ScanState) (uri sd : String)
    (h : did_from_uri uri = some sd) :
    refCheck st uri = Except.ok
      { users := st.users, posts := st.posts,
        deleted_users :=
          if sd ∈ st.users then st.deleted_users else sadd sd st.deleted_users,
        deleted_posts :=
          if uri ∈ st.posts then st.deleted_posts
          else sadd uri st.deleted_posts } := by
  unfold refCheck
  rw [h]

theorem refCheck_err (st : ScanState) (uri : String)
    (h : did_from_uri uri = none) :
    refCheck st uri = Except.error () := by
  unfold refCheck
  rw [h]

/-- C6: reference-scanner dangling semantics — the record's own actor
(and, for a post, its own URI) joins the known sets before its outbound
references are checked; a like or repost subject joins `deleted_posts`
exactly when it is not a known post at that moment and its actor joins
`deleted_users` exactly when that actor is unknown; a follow subject
joins `deleted_users` exactly when it is not a known user. -/

theorem scan_dangling_semantics (st : ScanState) (d su uri root parent : String)
    (sd rd pd : String)
    (hsu : did_from_uri su = some sd)
    (hroot : did_from_uri root = some rd)
    (hpar : did_from_uri parent = some pd)
    (hrne : root ≠ "") (hpne : parent ≠ "") :
    (∃ st', scanStep st (ScanRecord.like d su) = Except.ok st' ∧
      st'.users = sadd d st.users ∧
      (∀ x, x ∈ st'.deleted_posts ↔
        x ∈ st.deleted_posts ∨ (x = su ∧ su ∉ st.posts)) ∧
      (∀ x, x ∈ st'.deleted_users ↔
        x ∈ st.deleted_users ∨ (x = sd ∧ sd ∉ sadd d st.users))) ∧
    (∃ st', scanStep st (ScanRecord.repost d su) = Except.ok st' ∧
      st'.users = sadd d st.users ∧
      (∀ x, x ∈ st'.deleted_posts ↔
        x ∈ st.deleted_posts ∨ (x = su ∧ su ∉ st.posts)) ∧
      (∀ x, x ∈ st'.deleted_users ↔
        x ∈ st.deleted_users ∨ (x = sd ∧ sd ∉ sadd d st.users))) ∧
    (∃ st', scanStep st (ScanRecord.follow d su) = Except.ok st' ∧
      st'.deleted_posts = st.deleted_posts ∧
      (∀ x, x ∈ st'.deleted_users ↔
        x ∈ st.deleted_users ∨ (x = su ∧ su ∉ sadd d st.users))) ∧
    (∃ st', scanStep st (ScanRecord.post d uri (some (root, parent)) none) =
        Except.ok st' ∧
      st'.users = sadd d st.users ∧ st'.posts = sadd uri st.posts ∧
      (∀ x, x ∈ st'.deleted_posts ↔
        x ∈ st.deleted_posts ∨ (x = root ∧ root ∉ sadd uri st.posts) ∨
          (x = parent ∧ parent ∉ sadd uri st.posts))) := by
  refine ⟨?_, ?_, ?_, ?_⟩
  · have hstep : scanStep st (ScanRecord.like d su) =
        refCheck { st with users := sadd d st.users } su := rfl
    rw [hstep, refCheck_ok _ _ _ hsu]
    exact ⟨_, rfl, rfl, fun x => mem_cond_sadd x su st.deleted_posts _,
      fun x => mem_cond_sadd x sd st.deleted_users _⟩
  · have hstep : scanStep st (ScanRecord.repost d su) =
        refCheck { st with users := sadd d st.users } su := rfl
    rw [hstep, refCheck_ok _ _ _ hsu]
    exact ⟨_, rfl, rfl, fun x => mem_cond_sadd x su st.deleted_posts _,
      fun x => mem_cond_sadd x sd st.deleted_users _⟩
  · exact ⟨_, rfl, rfl, fun x => mem_cond_sadd x su st.deleted_users _⟩
  · have h1 := refCheck_ok
      ⟨sadd d st.users, sadd uri st.posts, st.deleted_users, st.deleted_posts⟩
      root rd hroot
    have h2 := refCheck_ok
      ⟨sadd d st.users, sadd uri st.posts,
        (if rd ∈ sadd d st.users then st.deleted_users
          else sadd rd st.deleted_users),
        (if root ∈ sadd uri st.posts then st.deleted_posts
          else sadd root st.deleted_posts)⟩
      parent pd hpar
    have hstep : scanStep st (ScanRecord.post d uri (some (root, parent)) none) =
        Except.bind
          (Except.bind
            (if root = "" then
              Except.ok (⟨sadd d st.users, sadd uri st.posts,
                st.deleted_users, st.deleted_posts⟩ : ScanState)
            else refCheck ⟨sadd d st.users, sadd uri st.posts,
                st.deleted_users, st.deleted_posts⟩ root)
            (fun st1 =>
              if parent = "" then Except.ok st1 else refCheck st1 parent))
          (fun st2 => Except.ok st2) := rfl
    rw [hstep, if_neg hrne]
    simp only [h1, except_bind_ok, if_neg hpne, h2]
    refine ⟨_, rfl, rfl, rfl, fun x => ?_⟩
    rw [mem_cond_sadd, mem_cond_sadd]
    constructor
    · rintro ((hx | hr) | hp)
      · exact Or.inl hx
      · exact Or.inr (Or.inl hr)
      · exact Or.inr (Or.inr hp)
    · rintro (hx | hr | hp)
      · exact Or.inl (Or.inl hx)
      · exact Or.inl (Or.inr hr)
      · exact Or.inr hp

/-- Witness for the C6 theorem at a concrete state and concrete
well-formed references. -/

theorem scan_dangling_semantics_witness :
    (∃ st', scanStep ⟨["u"], ["p"], [], []⟩
        (ScanRecord.like "d" "a/b/c/d/e") = Except.ok st' ∧
      st'.users = sadd "d" ["u"] ∧
      (∀ x, x ∈ st'.deleted_posts ↔
        x ∈ ([] : List String) ∨ (x = "a/b/c/d/e" ∧ "a/b/c/d/e" ∉ ["p"])) ∧
      (∀ x, x ∈ st'.deleted_users ↔
        x ∈ ([] : List String) ∨ (x = "c" ∧ "c" ∉ sadd "d" ["u"]))) ∧
    (∃ st', scanStep ⟨["u"], ["p"], [], []⟩
        (ScanRecord.repost "d" "a/b/c/d/e") = Except.ok st' ∧
      st'.users = sadd "d" ["u"] ∧
      (∀ x, x ∈ st'.deleted_posts ↔
        x ∈ ([] : List String) ∨ (x = "a/b/c/d/e" ∧ "a/b/c/d/e" ∉ ["p"])) ∧
      (∀ x, x ∈ st'.deleted_users ↔
        x ∈ ([] : List String) ∨ (x = "c" ∧ "c" ∉ sadd "d" ["u"]))) ∧
    (∃ st', scanStep ⟨["u"], ["p"], [], []⟩
        (ScanRecord.follow "d" "a/b/c/d/e") = Except.ok st' ∧
      st'.deleted_posts = [] ∧
      (∀ x, x ∈ st'.deleted_users ↔
        x ∈ ([] : List String) ∨
          (x = "a/b/c/d/e" ∧ "a/b/c/d/e" ∉ sadd "d" ["u"]))) ∧
    (∃ st', scanStep ⟨["u"], ["p"], [], []⟩
        (ScanRecord.post "d" "q" (some ("a/b/c/d/e", "a/b/c/d/e")) none) =
        Except.ok st' ∧
      st'.users = sadd "d" ["u"] ∧ st'.posts = sadd "q" ["p"] ∧
      (∀ x, x ∈ st'.deleted_posts ↔
        x ∈ ([] : List String) ∨
          (x = "a/b/c/d/e" ∧ "a/b/c/d/e" ∉ sadd "q" ["p"]) ∨
          (x = "a/b/c/d/e" ∧ "a/b/c/d/e" ∉ sadd "q" ["p"]))) :=
  scan_dangling_semantics ⟨["u"], ["p"], [], []⟩ "d" "a/b/c/d/e" "q"
    "a/b/c/d/e" "a/b/c/d/e" "c" "c" "c" rfl rfl rfl (by decide) (by decide)

/-- C9 counterexample: a like whose subject identifier has no index-2
component makes the scan step raise (the ValueError of `did_from_uri`
propagates out of the loop), instead of excluding the reference and
continuing as the claim states. -/

theorem scan_malformed_reference_aborts :
    scanStep ⟨[], [], [], []⟩ (ScanRecord.like "did:plc:a" "x") =
      Except.error () ∧
    (Except.error () : Except Unit ScanState) ≠
      Except.ok ⟨["did:plc:a"], [], [], ["x"]⟩ := by
  exact ⟨rfl, by decide⟩

/-- C9 (amended): a reference identifier from which no actor can be
extracted aborts the scan with an uncaught error (the run crashes); it
is not excluded with the run continuing. -/

theorem scan_malformed_reference_crashes (st : ScanState) (d su : String)
    (h : did_from_uri su = none) :
    scanStep st (ScanRecord.like d su) = Except.error () ∧
    scanStep st (ScanRecord.repost d su) = Except.error () := by
  have hl : scanStep st (ScanRecord.like d su) =
      refCheck { st with users := sadd d st.users } su := rfl
  have hr : scanStep st (ScanRecord.repost d su) =
      refCheck { st with users := sadd d st.users } su := rfl
  rw [hl, hr, refCheck_err _ _ h]
  exact ⟨rfl, rfl⟩

/-- Witness for the amended C9 theorem at a concrete malformed subject
identifier. -/

theorem scan_malformed_reference_crashes_witness :
    scanStep ⟨["u"], ["p"], [], []⟩ (ScanRecord.like "a" "x") =
      Except.error () ∧
    scanStep ⟨["u"], ["p"], [], []⟩ (ScanRecord.repost "a" "x") =
      Except.error () :=
  scan_malformed_reference_crashes ⟨["u"], ["p"], [], []⟩ "a" "x" rfl

/-- C10: frame property of the scanner for Block and Profile records —
the step only (possibly) adds the record's own actor to the known-users
set; `posts`, `deleted_users` and `deleted_posts` are untouched, and in
particular a Block's subject is never checked against any set. -/

theorem scan_block_profile_frame (st : ScanState) (d subj : String) :
    scanStep st (ScanRecord.block d subj) =
      Except.ok ⟨sadd d st.users, st.posts, st.deleted_users, st.deleted_posts⟩ ∧
    scanStep st (ScanRecord.profile d) =
      Except.ok ⟨sadd d st.users, st.posts, st.deleted_users, st.deleted_posts⟩ ∧
    (∀ x, x ∈ sadd d st.users ↔ x = d ∨ x ∈ st.users) :=
  ⟨rfl, rfl, fun x => mem_sadd x d st.users⟩

/-! ### Tombstone reinsertion merge (process-raw-firehose.py lines 257-314) -/

/-- A record of a temp batch as consulted by the merge: only its `ts`
field is read (the whole dict passes through otherwise unchanged). -/

theorem list_slice_trans {α : Type} (l : List α) (i j k : Nat)
    (h1 : i ≤ j) (h2 : j ≤ k) :
    (l.drop i).take (j - i) ++ (l.drop j).take (k - j) =
      (l.drop i).take (k - i) := by
  have hk : k - i = (j - i) + (k - j) := by omega
  rw [hk, List.take_add]
  congr 2
  rw [List.drop_drop]
  congr 1
  omega

theorem emitTombs_spec (deletes : List String) (ts : Int) :
    ∀ (fuel : Nat) (st : MergeSt),
      st.delete_idx ≤ ((emitTombs deletes ts fuel st).2).delete_idx ∧
      ((emitTombs deletes ts fuel st).2).last_ts = st.last_ts ∧
      ((emitTombs deletes ts fuel st).1).filterMap tombUri =
        (deletes.drop st.delete_idx).take
          (((emitTombs deletes ts fuel st).2).delete_idx - st.delete_idx) ∧
      ∀ x ∈ (emitTombs deletes ts fuel st).1,
        ∃ dd uu, x = MRec.tomb ts dd uu := by
  intro fuel
  induction fuel with
  | zero =>
    intro st
    refine ⟨le_refl _, rfl, by simp [emitTombs], ?_⟩
    intro x hx
    simp [emitTombs] at hx
  | succ f ih =>
    intro st
    by_cases h : st.delete_idx < deletes.length ∧ st.last_ts ≤ st.delete_ts ∧
        st.delete_ts ≤ ts
    · have hunf : emitTombs deletes ts (f + 1) st =
          (MRec.tomb ts
              ((did_from_uri (deletes.get ⟨st.delete_idx, h.1⟩)).getD "")
              (deletes.get ⟨st.delete_idx, h.1⟩) ::
            (emitTombs deletes ts f (nextSt deletes st)).1,
           (emitTombs deletes ts f (nextSt deletes st)).2) := by
        rw [emitTombs, dif_pos h]
      obtain ⟨ih1, ih2, ih3, ih4⟩ := ih (nextSt deletes st)
      have hnidx : (nextSt deletes st).delete_idx = st.delete_idx + 1 := rfl
      rw [hnidx] at ih1 ih3
      rw [hunf]
      refine ⟨?_, ?_, ?_, ?_⟩
      · exact le_trans (Nat.le_succ _) ih1
      · exact ih2
      · simp only [List.filterMap_cons, tombUri]
        rw [ih3]
        have hdrop : deletes.drop st.delete_idx =
            deletes.get ⟨st.delete_idx, h.1⟩ ::
              deletes.drop (st.delete_idx + 1) := by
          rw [List.drop_eq_getElem_cons h.1]
          simp
        rw [hdrop]
        have harith :
            ((emitTombs deletes ts f (nextSt deletes st)).2).delete_idx -
              st.delete_idx =
            (((emitTombs deletes ts f (nextSt deletes st)).2).delete_idx -
              (st.delete_idx + 1)) + 1 := by omega
        rw [harith, List.take_succ_cons]
      · intro x hx
        rcases List.mem_cons.mp hx with rfl | hx'
        · exact ⟨_, _, rfl⟩
        · exact ih4 x hx'
    · have hunf : emitTombs deletes ts (f + 1) st = ([], st) := by
        rw [emitTombs, dif_neg h]
      rw [hunf]
      refine ⟨le_refl _, rfl, by simp, ?_⟩
      intro x hx
      simp at hx

theorem tombsMatchNext_append (t : Int) (l : List MRec) (r : BRec)
    (rest : List MRec)
    (hall : ∀ x ∈ l, ∃ dd uu, x = MRec.tomb t dd uu) (hts : r.ts = t)
    (hrest : tombsMatchNext rest = true) :
    tombsMatchNext (l ++ MRec.orig r :: rest) = true := by
  induction l with
  | nil => simpa [tombsMatchNext] using hrest
  | cons x l' ihl =>
    obtain ⟨dd, uu, rfl⟩ := hall x (List.mem_cons_self x l')
    have hall' : ∀ y ∈ l', ∃ dd uu, y = MRec.tomb t dd uu :=
      fun y hy => hall y (List.mem_cons_of_mem _ hy)
    have ihh := ihl hall'
    cases l' with
    | nil =>
      simp only [List.nil_append] at ihh
      have h2 : tombsMatchNext
          ((MRec.tomb t dd uu :: []) ++ MRec.orig r :: rest) =
          (decide (r.ts = t) && tombsMatchNext (MRec.orig r :: rest)) := rfl
      rw [h2, hts]
      simp [ihh]
    | cons y l'' =>
      obtain ⟨dd2, uu2, rfl⟩ := hall' y (List.mem_cons_self y l'')
      simp only [List.cons_append] at ihh
      have h2 : tombsMatchNext
          ((MRec.tomb t dd uu :: MRec.tomb t dd2 uu2 :: l'') ++
            MRec.orig r :: rest) =
          (decide (t = t) &&
            tombsMatchNext (MRec.tomb t dd2 uu2 :: l'' ++ MRec.orig r :: rest)) :=
        rfl
      rw [h2]
      simp [ihh]

theorem processBatch_spec (deletes : List String) :
    ∀ (batch : List BRec) (st : MergeSt),
      st.delete_idx ≤ ((processBatch deletes st batch).2).delete_idx ∧
      ((processBatch deletes st batch).1).filterMap tombUri =
        (deletes.drop st.delete_idx).take
          (((processBatch deletes st batch).2).delete_idx - st.delete_idx) ∧
      tombsMatchNext ((processBatch deletes st batch).1) = true := by
  intro batch
  induction batch with
  | nil =>
    intro st
    exact ⟨le_refl _, by simp [processBatch], by simp [processBatch, tombsMatchNext]⟩
  | cons r rs ih =>
    intro st
    have hunf : processBatch deletes st (r :: rs) =
        ((emitTombs deletes r.ts (deletes.length - st.delete_idx) st).1 ++
          MRec.orig r ::
            (processBatch deletes
              ⟨((emitTombs deletes r.ts (deletes.length - st.delete_idx) st).2).delete_idx,
               ((emitTombs deletes r.ts (deletes.length - st.delete_idx) st).2).delete_ts,
               r.ts⟩ rs).1,
         (processBatch deletes
            ⟨((emitTombs deletes r.ts (deletes.length - st.delete_idx) st).2).delete_idx,
             ((emitTombs deletes r.ts (deletes.length - st.delete_idx) st).2).delete_ts,
             r.ts⟩ rs).2) := rfl
    obtain ⟨e1, _, e3, e4⟩ :=
      emitTombs_spec deletes r.ts (deletes.length - st.delete_idx) st
    obtain ⟨p1, p2, p3⟩ := ih
      ⟨((emitTombs deletes r.ts (deletes.length - st.delete_idx) st).2).delete_idx,
       ((emitTombs deletes r.ts (deletes.length - st.delete_idx) st).2).delete_ts,
       r.ts⟩
    rw [hunf]
    refine ⟨?_, ?_, ?_⟩
    · exact le_trans e1 p1
    · simp only [List.filterMap_append, List.filterMap_cons, tombUri]
      rw [e3, p2]
      exact list_slice_trans deletes _ _ _ e1 p1
    · exact tombsMatchNext_append r.ts _ r _ e4 rfl p3

theorem mergeAll_spec (deletes : List String) :
    ∀ (bs : List (List BRec)) (st : MergeSt),
      st.delete_idx ≤ ((mergeAll deletes st bs).2).delete_idx ∧
      (((mergeAll deletes st bs).1).flatten).filterMap tombUri =
        (deletes.drop st.delete_idx).take
          (((mergeAll deletes st bs).2).delete_idx - st.delete_idx) ∧
      ((mergeAll deletes st bs).1).length = bs.length ∧
      ∀ b ∈ (mergeAll deletes st bs).1, tombsMatchNext b = true := by
  intro bs
  induction bs with
  | nil =>
    intro st
    refine ⟨le_refl _, by simp [mergeAll], by simp [mergeAll], ?_⟩
    intro b hb
    simp [mergeAll] at hb
  | cons batch rest ih =>
    intro st
    have hunf : mergeAll deletes st (batch :: rest) =
        ((processBatch deletes st batch).1 ::
          (mergeAll deletes (processBatch deletes st batch).2 rest).1,
         (mergeAll deletes (processBatch deletes st batch).2 rest).2) := rfl
    obtain ⟨p1, p2, p3⟩ := processBatch_spec deletes batch st
    obtain ⟨m1, m2, m3, m4⟩ := ih (processBatch deletes st batch).2
    rw [hunf]
    refine ⟨le_trans p1 m1, ?_, by simp [m3], ?_⟩
    · simp only [List.flatten_cons, List.filterMap_append]
      rw [p2, m2]
      exact list_slice_trans deletes _ _ _ p1 m1
    · intro b hb
      rcases List.mem_cons.mp hb with rfl | hb'
      · exact p3
      · exact m4 b hb'

/-- C1: the merge initialises `delete_ts` to -1 and never reads the
first delete entry's record-key before consulting it, so the first
tombstone in sorted order is emitted in front of the very first
original record even when its decoded timestamp (here 31) exceeds every
record timestamp in the stream — the claimed placement window
`(previousTs, ts]` over decoded timestamps is violated at the first
entry. -/

theorem merge_first_tombstone_misplaced :
    reinsertDeletes ["at://did:plc:aaa/app.bsky.feed.post/z22"]
        [[⟨10⟩, ⟨20⟩]] =
      Except.ok
        [[MRec.tomb 10 "did:plc:aaa" "at://did:plc:aaa/app.bsky.feed.post/z22",
          MRec.orig ⟨10⟩, MRec.orig ⟨20⟩]] ∧
    deleteTsOf "at://did:plc:aaa/app.bsky.feed.post/z22" = 31 ∧
    ¬((31 : Int) ≤ 10) :=
  ⟨rfl, rfl, by decide⟩

/-- C2 counterexample: with two resolvable deletes (decoded timestamps
31 and 1023) and a single original record at ts 10, the first delete is
emitted (at the stream head) but the second is still pending when the
batches end; the merge writes no final batch, so that tombstone is
dropped — it does not appear exactly once. -/

theorem merge_trailing_tombstone_dropped :
    reinsertDeletes
        ["at://did:plc:aaa/app.bsky.feed.post/z22",
         "at://did:plc:aaa/app.bsky.feed.post/zz22"] [[⟨10⟩]] =
      Except.ok
        [[MRec.tomb 10 "did:plc:aaa" "at://did:plc:aaa/app.bsky.feed.post/z22",
          MRec.orig ⟨10⟩]] ∧
    List.filterMap tombUri
        (List.flatten
          [[MRec.tomb 10 "did:plc:aaa" "at://did:plc:aaa/app.bsky.feed.post/z22",
            MRec.orig ⟨10⟩]]) =
      ["at://did:plc:aaa/app.bsky.feed.post/z22"] ∧
    List.count "at://did:plc:aaa/app.bsky.feed.post/zz22"
        ["at://did:plc:aaa/app.bsky.feed.post/z22"] = 0 :=
  ⟨rfl, rfl, by decide⟩

/-- C2 (amended): the tombstones emitted by the merge form a contiguous
slice of the sorted delete sequence starting at the initial cursor
(hence, for a duplicate-free delete list, none is emitted more than
once), the number of output batches equals the number of input batches
(no final batch of leftovers is appended), and every delete entry not
reached when the original batches end — in particular one whose
timestamp lies beyond the last original record — is absent from the
output. -/

theorem merge_tombstones_slice (deletes : List String) (st : MergeSt)
    (bs : List (List BRec)) :
    st.delete_idx ≤ ((mergeAll deletes st bs).2).delete_idx ∧
    (((mergeAll deletes st bs).1).flatten).filterMap tombUri =
      (deletes.drop st.delete_idx).take
        (((mergeAll deletes st bs).2).delete_idx - st.delete_idx) ∧
    ((mergeAll deletes st bs).1).length = bs.length ∧
    (deletes.Nodup →
      ∀ u, ((((mergeAll deletes st bs).1).flatten).filterMap tombUri).count u
        ≤ 1) := by
  obtain ⟨m1, m2, m3, _⟩ := mergeAll_spec deletes bs st
  refine ⟨m1, m2, m3, ?_⟩
  intro hnd u
  rw [m2]
  have hsub : List.Sublist
      ((deletes.drop st.delete_idx).take
        (((mergeAll deletes st bs).2).delete_idx - st.delete_idx)) deletes :=
    (List.take_sublist _ _).trans (List.drop_sublist _ _)
  exact List.nodup_iff_count_le_one.mp (hnd.sublist hsub) u

/-- Witness for the amended C2 theorem at a concrete delete list and
batch sequence. -/

theorem merge_tombstones_slice_witness :
    (initMergeSt.delete_idx ≤
      ((mergeAll ["a/b/c/d/e22"] initMergeSt [[⟨10⟩]]).2).delete_idx ∧
    (((mergeAll ["a/b/c/d/e22"] initMergeSt [[⟨10⟩]]).1).flatten).filterMap
        tombUri =
      (["a/b/c/d/e22"].drop initMergeSt.delete_idx).take
        (((mergeAll ["a/b/c/d/e22"] initMergeSt [[⟨10⟩]]).2).delete_idx -
          initMergeSt.delete_idx) ∧
    ((mergeAll ["a/b/c/d/e22"] initMergeSt [[⟨10⟩]]).1).length =
      [[(⟨10⟩ : BRec)]].length ∧
    (List.Nodup ["a/b/c/d/e22"] →
      ∀ u, ((((mergeAll ["a/b/c/d/e22"] initMergeSt [[⟨10⟩]]).1).flatten).filterMap
          tombUri).count u ≤ 1)) :=
  merge_tombstones_slice ["a/b/c/d/e22"] initMergeSt [[⟨10⟩]]

/-- C8 counterexample: the delete entry with record-key "722" decodes
to 5 microseconds, yet the tombstone synthesized for it carries ts 10 —
the ts of the original record it is inserted before — so the tombstone
ts is not derived from its own recordId. -/

theorem merge_tombstone_ts_not_own :
    reinsertDeletes ["at://did:plc:bbb/app.bsky.feed.post/722"]
        [[⟨10⟩, ⟨20⟩]] =
      Except.ok
        [[MRec.tomb 10 "did:plc:bbb" "at://did:plc:bbb/app.bsky.feed.post/722",
          MRec.orig ⟨10⟩, MRec.orig ⟨20⟩]] ∧
    deleteTsOf "at://did:plc:bbb/app.bsky.feed.post/722" = 5 ∧
    (10 : Int) ≠ 5 :=
  ⟨rfl, rfl, by decide⟩

/-- C8 (amended): every synthesized tombstone is a Post-kind record
with deleted = true, and its ts equals the ts of the original record it
is inserted before — every maximal run of tombstones in an output batch
shares the ts of the original record that closes the run — rather than
the timestamp decoded from its own record-key. -/

theorem merge_tombstone_ts_from_neighbor (deletes : List String)
    (st : MergeSt) (bs : List (List BRec)) :
    ∀ b ∈ (mergeAll deletes st bs).1, tombsMatchNext b = true := by
  obtain ⟨_, _, _, m4⟩ := mergeAll_spec deletes bs st
  exact m4

/-- Witness for the amended C8 theorem on a concrete run. -/

theorem merge_tombstone_ts_from_neighbor_witness :
    tombsMatchNext [MRec.tomb 10 "c" "a/b/c/d/e22", MRec.orig ⟨10⟩] = true :=
  merge_tombstone_ts_from_neighbor ["a/b/c/d/e22"] initMergeSt [[⟨10⟩]]
    [MRec.tomb 10 "c" "a/b/c/d/e22", MRec.orig ⟨10⟩]
    (by
      have h : (mergeAll ["a/b/c/d/e22"] initMergeSt [[⟨10⟩]]).1 =
          [[MRec.tomb 10 "c" "a/b/c/d/e22", MRec.orig ⟨10⟩]] := rfl
      rw [h]
      exact List.mem_singleton.mpr rfl)

/-! ### Bounded reorder engine (process-raw-firehose.py lines 86-136) -/

/-- A heap entry: the key pair `(ts, counter)` of the pushed tuple
`(ts, counter, record_with_ts)`.  The counter is globally unique (a
strictly increasing push counter), so tuple comparison never reaches
the record component, and the key pair identifies the record — the
counter is its arrival position among resolved records. -/

theorem drain_flatten (B : Nat) (hB : 0 < B) :
    ∀ buf : List Key, (drain B buf).flatten = buf := by
  have key : ∀ (n : Nat) (buf : List Key), buf.length = n →
      (drain B buf).flatten = buf := by
    intro n
    induction n using Nat.strong_induction_on with
    | _ n ih =>
      intro buf hlen
      rw [drain, dif_neg (Nat.pos_iff_ne_zero.mp hB)]
      by_cases hb : buf = []
      · rw [dif_pos hb]
        simp [hb]
      · rw [dif_neg hb]
        have h1 : 0 < buf.length := List.length_pos.mpr hb
        have hlt : (buf.drop B).length < n := by
          rw [List.length_drop]
          omega
        rw [List.flatten_cons, ih (buf.drop B).length hlt (buf.drop B) rfl]
        exact List.take_append_drop B buf
  exact fun buf => key buf.length buf rfl

theorem enumKeys_length (tss : List Int) :
    (enumKeys tss).length = tss.length := by
  unfold enumKeys
  simp

theorem enumKeys_get (tss : List Int) (i : Nat)
    (h : i < (enumKeys tss).length) :
    ((enumKeys tss).get ⟨i, h⟩).2 = i := by
  unfold enumKeys at h ⊢
  simp

theorem enumKeys_nodup (tss : List Int) : (enumKeys tss).Nodup := by
  rw [List.nodup_iff_injective_get]
  intro i j hij
  have hi := enumKeys_get tss i.1 i.2
  have hj := enumKeys_get tss j.1 j.2
  apply Fin.ext
  calc i.1 = ((enumKeys tss).get i).2 := by rw [← hi]
    _ = ((enumKeys tss).get j).2 := by rw [hij]
    _ = j.1 := by rw [hj]

theorem enumKeys_self_get (tss : List Int) (x : Key)
    (hx : x ∈ enumKeys tss) :
    ∃ h : x.2 < (enumKeys tss).length, (enumKeys tss).get ⟨x.2, h⟩ = x := by
  obtain ⟨⟨j, hj⟩, hg⟩ := List.get_of_mem hx
  have hc : x.2 = j := by rw [← hg]; exact enumKeys_get tss j hj
  refine ⟨hc ▸ hj, ?_⟩
  have hfin : (⟨x.2, hc ▸ hj⟩ : Fin (enumKeys tss).length) = ⟨j, hj⟩ :=
    Fin.ext hc
  rw [hfin]
  exact hg

theorem sortedKeys_sorted (tss : List Int) :
    (sortedKeys tss).Sorted keyLe :=
  List.sorted_insertionSort keyLe (enumKeys tss)

theorem sortedKeys_perm (tss : List Int) :
    List.Perm (sortedKeys tss) (enumKeys tss) :=
  List.perm_insertionSort keyLe (enumKeys tss)

theorem sortedKeys_nodup (tss : List Int) : (sortedKeys tss).Nodup :=
  (sortedKeys_perm tss).nodup_iff.mpr (enumKeys_nodup tss)

theorem sortedKeys_length (tss : List Int) :
    (sortedKeys tss).length = (enumKeys tss).length :=
  (sortedKeys_perm tss).length_eq

/-- Positions in a sorted duplicate-free list reflect the order: a
strictly smaller element sits at a strictly smaller index. -/

theorem sorted_pos_lt (S : List Key) (hsort : S.Sorted keyLe)
    (p q : Nat) (hp : p < S.length) (hq : q < S.length)
    (hle : keyLe (S.get ⟨p, hp⟩) (S.get ⟨q, hq⟩))
    (hne : S.get ⟨p, hp⟩ ≠ S.get ⟨q, hq⟩) : p < q := by
  by_contra hge
  push_neg at hge
  rcases Nat.lt_or_ge q p with hlt | hge2
  · have hrel := hsort.rel_get_of_lt (show (⟨q, hq⟩ : Fin S.length) < ⟨p, hp⟩ from hlt)
    exact hne (antisymm hle hrel)
  · have : p = q := le_antisymm hge2 hge
    subst this
    exact hne rfl

theorem sk_get_slice {α : Type} (S : List α) (b e i : Nat)
    (hi : i < ((S.drop e).take b).length) (h2 : e + i < S.length) :
    ((S.drop e).take b).get ⟨i, hi⟩ = S.get ⟨e + i, h2⟩ := by
  simp [List.get_eq_getElem, List.getElem_take, List.getElem_drop]

theorem sk_get_take {α : Type} (S : List α) (e q : Nat)
    (hq : q < (S.take e).length) (h2 : q < S.length) :
    (S.take e).get ⟨q, hq⟩ = S.get ⟨q, h2⟩ := by
  simp [List.get_eq_getElem, List.getElem_take]

theorem get_mem' {α : Type} (l : List α) (i : Nat) (h : i < l.length) :
    l.get ⟨i, h⟩ ∈ l :=
  List.get_mem l i h

/-- The flush step of the reorder engine: when the buffer holds exactly
2B entries, the records seen so far are the emitted prefix plus the
buffer, and the stream's skew is below B, then the B smallest buffer
entries are exactly the next B entries of the fully sorted sequence. -/

theorem flush_take (B : Nat) (tss : List Int)
    (hskew : ∀ (p : Nat) (hp : p < (sortedKeys tss).length),
      ((sortedKeys tss).get ⟨p, hp⟩).2 < p + B)
    (e : Nat) (buf : List Key)
    (hbufsort : buf.Sorted keyLe)
    (hbuflen : buf.length = 2 * B)
    (hm : e + 2 * B ≤ (enumKeys tss).length)
    (hB : 0 < B)
    (hperm : List.Perm ((sortedKeys tss).take e ++ buf)
      ((enumKeys tss).take (e + 2 * B))) :
    buf.take B = ((sortedKeys tss).drop e).take B := by
  have hSsort := sortedKeys_sorted tss
  have hSperm := sortedKeys_perm tss
  have hSnodup := sortedKeys_nodup tss
  have hSlen := sortedKeys_length tss
  have hinpnodup := enumKeys_nodup tss
  have htakennodup : ((enumKeys tss).take (e + 2 * B)).Nodup :=
    hinpnodup.sublist (List.take_sublist _ _)
  have happnodup : (((sortedKeys tss).take e) ++ buf).Nodup :=
    hperm.nodup_iff.mpr htakennodup
  have hbufnodup : buf.Nodup := (List.nodup_append.mp happnodup).2.1
  have hdisj : ∀ x ∈ buf, x ∉ (sortedKeys tss).take e := by
    intro x hx hxe
    exact (List.nodup_append.mp happnodup).2.2 hxe hx
  have hTlen : (((sortedKeys tss).drop e).take B).length = B := by
    rw [List.length_take, List.length_drop]
    omega
  have hUlen : (buf.take B).length = B := by
    rw [List.length_take]
    omega
  -- every buffer element sits in the sorted sequence at a position ≥ e
  have hbufS : ∀ y ∈ buf, ∃ (py : Nat) (hpy : py < (sortedKeys tss).length),
      e ≤ py ∧ (sortedKeys tss).get ⟨py, hpy⟩ = y := by
    intro y hy
    have hyS : y ∈ sortedKeys tss := by
      have h1 : y ∈ (enumKeys tss).take (e + 2 * B) :=
        hperm.mem_iff.mp (List.mem_append_right _ hy)
      exact hSperm.mem_iff.mpr (List.mem_of_mem_take h1)
    obtain ⟨⟨py, hpy⟩, hgy⟩ := List.get_of_mem hyS
    refine ⟨py, hpy, ?_, hgy⟩
    by_contra hlt
    push_neg at hlt
    apply hdisj y hy
    have h1 : py < (((sortedKeys tss).take e)).length := by
      rw [List.length_take]
      omega
    have h2 : (((sortedKeys tss).take e)).get ⟨py, h1⟩ = y := by
      rw [sk_get_take _ _ _ h1 hpy]
      exact hgy
    rw [← h2]
    exact get_mem' _ _ _
  -- sorted-sequence positions in [e, e + B) land in the next take
  have hTmem_of_pos : ∀ (p : Nat) (hp : p < (sortedKeys tss).length),
      e ≤ p → p < e + B →
      (sortedKeys tss).get ⟨p, hp⟩ ∈ ((sortedKeys tss).drop e).take B := by
    intro p hp hpe hpB
    have h1 : p - e < (((sortedKeys tss).drop e).take B).length := by
      rw [hTlen]
      omega
    have h2 : (((sortedKeys tss).drop e).take B).get ⟨p - e, h1⟩ =
        (sortedKeys tss).get ⟨p, hp⟩ := by
      rw [sk_get_slice (sortedKeys tss) B e (p - e) h1 (by omega)]
      congr 1
      apply Fin.ext
      show e + (p - e) = p
      omega
    rw [← h2]
    exact get_mem' _ _ _
  -- and conversely every element of the next take has such a position
  have hTfind : ∀ x ∈ ((sortedKeys tss).drop e).take B,
      ∃ (p : Nat) (hp : p < (sortedKeys tss).length),
        e ≤ p ∧ p < e + B ∧ (sortedKeys tss).get ⟨p, hp⟩ = x := by
    intro x hx
    obtain ⟨⟨i, hi⟩, hg⟩ := List.get_of_mem hx
    have hi' : i < B := by
      have h := hi
      rw [hTlen] at h
      exact h
    have hilen : e + i < (sortedKeys tss).length := by
      have h := hi
      rw [List.length_take, List.length_drop] at h
      omega
    have hx' : (sortedKeys tss).get ⟨e + i, hilen⟩ = x := by
      rw [← hg, sk_get_slice _ B e i hi hilen]
    exact ⟨e + i, hilen, Nat.le_add_right _ _, by omega, hx'⟩
  -- every element of the next take is in the buffer
  have hTbuf : ∀ x ∈ ((sortedKeys tss).drop e).take B, x ∈ buf := by
    intro x hxT
    obtain ⟨p, hp, hpe, hpB, hgx⟩ := hTfind x hxT
    have hxS : x ∈ sortedKeys tss := by
      rw [← hgx]
      exact get_mem' _ _ _
    have hxinp : x ∈ enumKeys tss := hSperm.mem_iff.mp hxS
    obtain ⟨hxlen, hxget⟩ := enumKeys_self_get tss x hxinp
    have hsk := hskew p hp
    rw [hgx] at hsk
    have hxm : x.2 < e + 2 * B := by omega
    have h1 : x.2 < ((enumKeys tss).take (e + 2 * B)).length := by
      rw [List.length_take]
      omega
    have h2 : ((enumKeys tss).take (e + 2 * B)).get ⟨x.2, h1⟩ = x := by
      rw [sk_get_take _ _ _ h1 hxlen]
      exact hxget
    have hxtake : x ∈ (enumKeys tss).take (e + 2 * B) := by
      rw [← h2]
      exact get_mem' _ _ _
    have hxapp : x ∈ (sortedKeys tss).take e ++ buf := hperm.mem_iff.mpr hxtake
    rcases List.mem_append.mp hxapp with hxe | hxb
    · exfalso
      obtain ⟨⟨q, hq⟩, hgq⟩ := List.get_of_mem hxe
      have hq' : q < e := by
        have h := hq
        rw [List.length_take] at h
        omega
      have hqlen : q < (sortedKeys tss).length := by omega
      have hgq' : (sortedKeys tss).get ⟨q, hqlen⟩ = x := by
        rw [← hgq, sk_get_take _ _ _ hq hqlen]
      have hinj := List.nodup_iff_injective_get.mp hSnodup
      have hfin : (⟨q, hqlen⟩ : Fin (sortedKeys tss).length) = ⟨p, hp⟩ :=
        hinj (by rw [hgq', hgx])
      have hqp : q = p := congrArg Fin.val hfin
      omega
    · exact hxb
  -- no element of the next take sits in the dropped half of the buffer
  have hTnotdrop : ∀ x ∈ ((sortedKeys tss).drop e).take B,
      x ∉ buf.drop B := by
    intro x hxT hxdrop
    obtain ⟨px, hpx, hpxe, hpxB, hgx⟩ := hTfind x hxT
    have hbufsplit : buf.take B ++ buf.drop B = buf := List.take_append_drop _ _
    have hdisj2 : List.Disjoint (buf.take B) (buf.drop B) :=
      (List.nodup_append.mp (by rw [hbufsplit]; exact hbufnodup)).2.2
    have hrel : ∀ z ∈ buf.take B, ∀ w ∈ buf.drop B, keyLe z w :=
      (List.pairwise_append.mp (by rw [hbufsplit]; exact hbufsort)).2.2
    have hUsub : ∀ z ∈ buf.take B, z ∈ ((sortedKeys tss).drop e).take B := by
      intro z hz
      have hzbuf : z ∈ buf := List.mem_of_mem_take hz
      obtain ⟨pz, hpz, hpze, hgz⟩ := hbufS z hzbuf
      have hzx : keyLe z x := hrel z hz x hxdrop
      have hzne : z ≠ x := by
        intro he
        exact hdisj2 hz (he ▸ hxdrop)
      have hplt : pz < px :=
        sorted_pos_lt _ hSsort pz px hpz hpx
          (by rw [hgz, hgx]; exact hzx) (by rw [hgz, hgx]; exact hzne)
      have hpzB : pz < e + B := by omega
      have := hTmem_of_pos pz hpz hpze hpzB
      rwa [hgz] at this
    have hxnotU : x ∉ buf.take B := fun hxU => hdisj2 hxU hxdrop
    have hcons_nodup : (x :: buf.take B).Nodup := by
      rw [List.nodup_cons]
      exact ⟨hxnotU, hbufnodup.sublist (List.take_sublist _ _)⟩
    have hcons_sub : (x :: buf.take B) ⊆ ((sortedKeys tss).drop e).take B := by
      intro a ha
      rcases List.mem_cons.mp ha with rfl | ha'
      · exact hxT
      · exact hUsub a ha'
    have hsp := List.subperm_of_subset hcons_nodup hcons_sub
    have hlen := hsp.length_le
    rw [hTlen] at hlen
    simp only [List.length_cons, hUlen] at hlen
    omega
  -- hence the next take is contained in the flushed half, and equality
  have hTsubU : ∀ x ∈ ((sortedKeys tss).drop e).take B, x ∈ buf.take B := by
    intro x hxT
    have hxbuf := hTbuf x hxT
    have hsplit : x ∈ buf.take B ++ buf.drop B := by
      rw [List.take_append_drop]
      exact hxbuf
    rcases List.mem_append.mp hsplit with h | h
    · exact h
    · exact absurd h (hTnotdrop x hxT)
  have hTnodup : (((sortedKeys tss).drop e).take B).Nodup :=
    hSnodup.sublist ((List.take_sublist _ _).trans (List.drop_sublist _ _))
  have hsp := List.subperm_of_subset hTnodup hTsubU
  have hperm2 : List.Perm (((sortedKeys tss).drop e).take B) (buf.take B) :=
    hsp.perm_of_length_le (by rw [hTlen, hUlen])
  have hTsorted : (((sortedKeys tss).drop e).take B).Sorted keyLe :=
    hSsort.sublist ((List.take_sublist _ _).trans (List.drop_sublist _ _))
  have hUsorted : (buf.take B).Sorted keyLe :=
    hbufsort.sublist (List.take_sublist _ _)
  exact (List.eq_of_perm_of_sorted hperm2 hTsorted hUsorted).symm

/-- Main invariant of the streaming loop: if the records consumed so
far split into an emitted prefix of the sorted sequence plus the sorted
buffer, then the whole remaining run emits exactly the rest of the
sorted sequence (batches first, final buffer last). -/

theorem reorderPush_spec (B : Nat) (hB : 0 < B) (tss : List Int)
    (hskew : ∀ (p : Nat) (hp : p < (sortedKeys tss).length),
      ((sortedKeys tss).get ⟨p, hp⟩).2 < p + B) :
    ∀ (rest buf : List Key) (e : Nat),
      buf.Sorted keyLe →
      buf.length < 2 * B →
      List.Perm ((sortedKeys tss).take e ++ buf)
        ((enumKeys tss).take (e + buf.length)) →
      rest = (enumKeys tss).drop (e + buf.length) →
      (reorderPush B rest buf).1.flatten ++ (reorderPush B rest buf).2 =
        (sortedKeys tss).drop e := by
  intro rest
  induction rest with
  | nil =>
    intro buf e hsort hlen hperm hrest
    have hN : (enumKeys tss).length ≤ e + buf.length := by
      have hlen0 := congrArg List.length hrest
      rw [List.length_drop] at hlen0
      simp only [List.length_nil] at hlen0
      omega
    have htake : (enumKeys tss).take (e + buf.length) = enumKeys tss :=
      List.take_of_length_le hN
    rw [htake] at hperm
    have hperm2 : List.Perm ((sortedKeys tss).take e ++ buf)
        ((sortedKeys tss).take e ++ (sortedKeys tss).drop e) := by
      rw [List.take_append_drop]
      exact hperm.trans (sortedKeys_perm tss).symm
    have hpermbuf : List.Perm buf ((sortedKeys tss).drop e) :=
      (List.perm_append_left_iff _).mp hperm2
    have heq : buf = (sortedKeys tss).drop e :=
      List.eq_of_perm_of_sorted hpermbuf hsort
        ((sortedKeys_sorted tss).sublist (List.drop_sublist _ _))
    simp [reorderPush, heq]
  | cons k rest' ih =>
    intro buf e hsort hlen hperm hrest
    have hmlt : e + buf.length < (enumKeys tss).length := by
      by_contra hge
      push_neg at hge
      rw [List.drop_eq_nil_of_le hge] at hrest
      exact List.noConfusion hrest
    have htake1 : (enumKeys tss).take (e + buf.length + 1) =
        (enumKeys tss).take (e + buf.length) ++ [k] := by
      rw [List.take_add, ← hrest]
      rfl
    have hrest' : rest' = (enumKeys tss).drop (e + buf.length + 1) := by
      have h2 : rest' = ((enumKeys tss).drop (e + buf.length)).drop 1 := by
        rw [← hrest]
        rfl
      rw [h2, List.drop_drop]
    have hbufsort' : (heapPush k buf).Sorted keyLe :=
      List.Sorted.orderedInsert k buf hsort
    have hlen' : (heapPush k buf).length = buf.length + 1 :=
      List.orderedInsert_length keyLe buf k
    have hperm' : List.Perm ((sortedKeys tss).take e ++ heapPush k buf)
        ((enumKeys tss).take (e + buf.length + 1)) := by
      have h1 : List.Perm (heapPush k buf) (buf ++ [k]) :=
        (List.perm_orderedInsert _ k buf).trans
          (List.perm_append_singleton k buf).symm
      have h2 : List.Perm ((sortedKeys tss).take e ++ heapPush k buf)
          (((sortedKeys tss).take e ++ buf) ++ [k]) := by
        rw [List.append_assoc]
        exact List.Perm.append_left _ h1
      have h3 : List.Perm (((sortedKeys tss).take e ++ buf) ++ [k])
          ((enumKeys tss).take (e + buf.length) ++ [k]) :=
        hperm.append_right [k]
      rw [htake1]
      exact h2.trans h3
    by_cases hflush : 2 * B ≤ (heapPush k buf).length
    · have hlenexact : (heapPush k buf).length = 2 * B := by omega
      have hm : e + 2 * B ≤ (enumKeys tss).length := by omega
      have hperm'' : List.Perm ((sortedKeys tss).take e ++ heapPush k buf)
          ((enumKeys tss).take (e + 2 * B)) := by
        have hidx : e + buf.length + 1 = e + 2 * B := by omega
        rw [← hidx]
        exact hperm'
      have hcrux := flush_take B tss hskew e (heapPush k buf) hbufsort'
        hlenexact hm hB hperm''
      have hsort2 : ((heapPush k buf).drop B).Sorted keyLe :=
        hbufsort'.sublist (List.drop_sublist _ _)
      have hdroplen : ((heapPush k buf).drop B).length = B := by
        rw [List.length_drop, hlenexact]
        omega
      have hlen2 : ((heapPush k buf).drop B).length < 2 * B := by
        rw [hdroplen]
        omega
      have hperm2 : List.Perm
          ((sortedKeys tss).take (e + B) ++ (heapPush k buf).drop B)
          ((enumKeys tss).take (e + B + ((heapPush k buf).drop B).length)) := by
        have hsplit : (sortedKeys tss).take (e + B) =
            (sortedKeys tss).take e ++ ((sortedKeys tss).drop e).take B :=
          List.take_add (sortedKeys tss) e B
        rw [hsplit, ← hcrux, List.append_assoc, List.take_append_drop]
        have hidx : e + B + ((heapPush k buf).drop B).length = e + 2 * B := by
          rw [hdroplen]
          omega
        rw [hidx]
        exact hperm''
      have hrest2 : rest' =
          (enumKeys tss).drop (e + B + ((heapPush k buf).drop B).length) := by
        have hidx : e + B + ((heapPush k buf).drop B).length =
            e + buf.length + 1 := by
          rw [hdroplen]
          omega
        rw [hidx]
        exact hrest'
      have hih := ih ((heapPush k buf).drop B) (e + B) hsort2 hlen2 hperm2 hrest2
      have hunf : reorderPush B (k :: rest') buf =
          ((heapPush k buf).take B ::
            (reorderPush B rest' ((heapPush k buf).drop B)).1,
           (reorderPush B rest' ((heapPush k buf).drop B)).2) := by
        simp only [reorderPush]
        rw [if_pos hflush]
      rw [hunf]
      simp only [List.flatten_cons, List.append_assoc]
      rw [hih, hcrux]
      have hdd : (sortedKeys tss).drop (e + B) =
          ((sortedKeys tss).drop e).drop B := by
        rw [List.drop_drop]
      rw [hdd, List.take_append_drop]
    · have hlt : (heapPush k buf).length < 2 * B := lt_of_not_ge hflush
      have hperm2 : List.Perm ((sortedKeys tss).take e ++ heapPush k buf)
          ((enumKeys tss).take (e + (heapPush k buf).length)) := by
        rw [hlen']
        exact hperm'
      have hrest2 : rest' = (enumKeys tss).drop (e + (heapPush k buf).length) := by
        rw [hlen']
        exact hrest'
      have hih := ih (heapPush k buf) e hbufsort' hlt hperm2 hrest2
      have hunf : reorderPush B (k :: rest') buf =
          reorderPush B rest' (heapPush k buf) := by
        simp only [reorderPush]
        rw [if_neg hflush]
      rw [hunf]
      exact hih

/-- C3: when every record's displacement between arrival position and
true chronological rank (the stable (ts, counter) order) is below the
batch capacity B, the reorder engine emits the fully sorted key
sequence: timestamps are non-decreasing within and across batches, and
the union of all batches holds every resolved input record exactly once
(it is a permutation of the enumerated input). -/

theorem reorder_sorted_complete (B : Nat) (tss : List Int) (hB : 0 < B)
    (hskew : ∀ (p : Nat) (hp : p < (sortedKeys tss).length),
      ((sortedKeys tss).get ⟨p, hp⟩).2 < p + B ∧
        p < ((sortedKeys tss).get ⟨p, hp⟩).2 + B) :
    (reorder B tss).flatten = sortedKeys tss ∧
    ((reorder B tss).flatten).Pairwise (fun a b => a.1 ≤ b.1) ∧
    List.Perm ((reorder B tss).flatten) (enumKeys tss) := by
  have hmain := reorderPush_spec B hB tss (fun p hp => (hskew p hp).1)
    (enumKeys tss) [] 0
    List.sorted_nil
    (by simp; omega)
    (by simp)
    (by simp)
  have hfl : (reorder B tss).flatten = sortedKeys tss := by
    unfold reorder
    rw [List.flatten_append, drain_flatten B hB]
    simpa using hmain
  refine ⟨hfl, ?_, ?_⟩
  · rw [hfl]
    refine List.Pairwise.imp ?_ (sortedKeys_sorted tss)
    intro a b hab
    unfold keyLe at hab
    omega
  · rw [hfl]
    exact sortedKeys_perm tss

/-- Witness for the C3 theorem: the spec's own scenario — three records
with timestamps 100, 50, 150 in that arrival order and capacity B = 2;
the skew is 1 < 2 and the engine emits batches [(50,1),(100,0)] and
[(150,2)]. -/

theorem reorder_sorted_complete_witness :
    (reorder 2 [100, 50, 150]).flatten = sortedKeys [100, 50, 150] ∧
    ((reorder 2 [100, 50, 150]).flatten).Pairwise (fun a b => a.1 ≤ b.1) ∧
    List.Perm ((reorder 2 [100, 50, 150]).flatten) (enumKeys [100, 50, 150]) :=
  reorder_sorted_complete 2 [100, 50, 150] (by decide) (by decide)

end Bluesky
